import Mathlib

/-!
# Verification of `tidydocmd.py`

A shallow embedding of the markdown-section sorter `src/tidydocmd.py` and
proofs about it.  Lines are modelled as `List Char` (including their
terminators), matching Python's `readlines` output.  The mutable `Section`
objects of the source are modelled as an immutable tree; the parser's
in-place mutation of stack/parent objects is modelled by attaching each
closed section to its parent when it is popped, which produces the same
final tree because the source appends children and text only at the ends
of the corresponding lists and only to the innermost open section.

The section tree is a nested inductive type; functions that recurse over
true subtrees are defined as mutual recursions over sections and lists of
sections, while the sorter (which recurses over a *permuted* child list)
is fuel-indexed with the structural `size` of the tree as ample fuel.
-/

namespace TidyDocMd

/-- The whitespace characters stripped by Python's `str.strip()`
(ASCII range; the inputs modelled here are ASCII). -/
def pyIsSpace (c : Char) : Bool :=
  c = ' ' || c = '\t' || c = '\n' || c = '\r' || c = Char.ofNat 11 || c = Char.ofNat 12

/-- Python `str.strip()`: drop whitespace from both ends. -/
def pyStrip (l : List Char) : List Char :=
  ((l.dropWhile pyIsSpace).reverse.dropWhile pyIsSpace).reverse

/-- Python `str.lower()` (ASCII case folding, which is all the source needs). -/
def pyLower (l : List Char) : List Char :=
  l.map Char.toLower

/-- Python `str.split()` with no separator: split on runs of whitespace,
discarding empty pieces. -/
def pySplitWs : List Char → List (List Char)
  | [] => []
  | c :: rest =>
    if pyIsSpace c then pySplitWs rest
    else
      match pySplitWs rest, rest with
      | [], _ => [[c]]
      | w :: ws, r :: _ => if pyIsSpace r then [c] :: w :: ws else (c :: w) :: ws
      | _ :: _, [] => [[c]]

/-- Python string `<=` (lexicographic on code points), as used by
`list.sort(key=...)` to compare the derived string keys. -/
def pyStrLe : List Char → List Char → Bool
  | [], _ => true
  | _ :: _, [] => false
  | a :: as, b :: bs => if a < b then true else if b < a then false else pyStrLe as bs

theorem pyStrLe_refl (l : List Char) : pyStrLe l l = true := by
  induction l with
  | nil => rfl
  | cons a as ih => simp [pyStrLe, ih]

theorem pyStrLe_total (a b : List Char) : pyStrLe a b = true ∨ pyStrLe b a = true := by
  induction a generalizing b with
  | nil => left; rfl
  | cons x xs ih =>
    cases b with
    | nil => right; rfl
    | cons y ys =>
      rcases lt_trichotomy x y with h | h | h
      · left; simp [pyStrLe, h]
      · subst h
        rcases ih ys with h' | h' <;> [left; right] <;>
          simp [pyStrLe, lt_irrefl, h']
      · right; simp [pyStrLe, h]

theorem pyStrLe_trans {a b c : List Char} (hab : pyStrLe a b = true)
    (hbc : pyStrLe b c = true) : pyStrLe a c = true := by
  induction a generalizing b c with
  | nil => rfl
  | cons x xs ih =>
    cases b with
    | nil => simp [pyStrLe] at hab
    | cons y ys =>
      cases c with
      | nil => simp [pyStrLe] at hbc
      | cons z zs =>
        rcases lt_trichotomy x y with hxy | hxy | hxy
        · -- x < y, so from hbc we get y ≤ z hence x < z
          rcases lt_trichotomy y z with hyz | hyz | hyz
          · simp [pyStrLe, hxy.trans hyz]
          · subst hyz; simp [pyStrLe, hxy]
          · simp [pyStrLe, hyz, asymm hyz] at hbc
        · subst hxy
          rcases lt_trichotomy x z with hxz | hxz | hxz
          · simp [pyStrLe, hxz]
          · subst hxz
            simp only [pyStrLe, lt_irrefl, if_neg (lt_irrefl x).elim, if_false] at hab hbc ⊢
            exact ih hab hbc
          · simp [pyStrLe, hxz, asymm hxz] at hbc
        · simp [pyStrLe, hxy, asymm hxy] at hab

/-- If `¬ pyStrLe a b` then `a ≠ b`. -/
theorem ne_of_not_pyStrLe {a b : List Char} (h : ¬ pyStrLe a b = true) : a ≠ b := by
  intro he; subst he; exact h (pyStrLe_refl a)

/-- The `Section` class of `tidydocmd.py`: a header's trimmed `name`, its
`depth` (number of `#` characters), the raw `text` lines belonging to it,
and its `subsections` in document order.  A nested inductive, since
structures may not be recursive. -/
inductive Section : Type where
  | mk (name : List Char) (depth : Nat) (text : List (List Char)) (subsections : List Section)

def Section.name : Section → List Char
  | .mk n _ _ _ => n

def Section.depth : Section → Nat
  | .mk _ d _ _ => d

def Section.text : Section → List (List Char)
  | .mk _ _ t _ => t

def Section.subsections : Section → List Section
  | .mk _ _ _ s => s

@[simp] theorem Section.name_mk (n d t s) : (Section.mk n d t s).name = n := rfl
@[simp] theorem Section.depth_mk (n d t s) : (Section.mk n d t s).depth = d := rfl
@[simp] theorem Section.text_mk (n d t s) : (Section.mk n d t s).text = t := rfl
@[simp] theorem Section.subsections_mk (n d t s) : (Section.mk n d t s).subsections = s := rfl

theorem Section.ext_iff (s : Section) :
    s = .mk s.name s.depth s.text s.subsections := by
  cases s; rfl

/-- Modelled from the spec: the external human-name parser
(`nameparser.HumanName`, not part of this repository).  Returns the
`(first, last)` components of a name: a name written with a comma
(`"Last, First ..."`) is split at the first comma into the last-name part
and the remainder whose first whitespace token is the first name; without
a comma the first whitespace token is the first name and, when at least
two tokens are present, the final token is the last name (a single token
is a first name only; a name with no tokens has neither component). -/
def humanName (name : List Char) : List Char × List Char :=
  if name.contains ',' then
    let lastPart := pyStrip (name.takeWhile (fun c => c ≠ ','))
    let rest := pyStrip ((name.dropWhile (fun c => c ≠ ',')).drop 1)
    ((pySplitWs rest).headD [], lastPart)
  else
    match pySplitWs name with
    | [] => ([], [])
    | [t] => (t, [])
    | t :: ts => (t, ts.getLastD [])

/-- `Section.extract_last_name` from the source: the lower-cased last name
from the parsed header name if present, otherwise the lower-cased first
name.  (The `self` parameter of the Python method is unused there.) -/
def Section.extract_last_name (sect : Section) : List Char :=
  let parsed := humanName sect.name
  if parsed.2 ≠ [] then pyLower parsed.2 else pyLower parsed.1

/-- The sort key derived from a header name alone (what
`extract_last_name` computes, as a function of the `name` field). -/
def nameKey (name : List Char) : List Char :=
  let parsed := humanName name
  if parsed.2 ≠ [] then pyLower parsed.2 else pyLower parsed.1

theorem extract_last_name_eq_nameKey (s : Section) :
    s.extract_last_name = nameKey s.name := rfl

/-- The comparison `list.sort(key=self.extract_last_name)` sorts by:
key of the left argument ≤ key of the right argument. -/
def keyLe (a b : Section) : Prop :=
  pyStrLe a.extract_last_name b.extract_last_name = true

instance : DecidableRel keyLe := fun a b =>
  decidable_of_iff (pyStrLe a.extract_last_name b.extract_last_name = true) Iff.rfl

instance : IsTotal Section keyLe :=
  ⟨fun a b => pyStrLe_total a.extract_last_name b.extract_last_name⟩

instance : IsTrans Section keyLe :=
  ⟨fun _ _ _ hab hbc => pyStrLe_trans hab hbc⟩

/-- Python's `list.sort(key=...)`: a stable by-key sort.  A stable sort by
a total preorder is a uniquely determined function of the input list, so
insertion sort ordered by `keyLe` (which is stable) is extensionally the
sort performed by the source. -/
def pySortByKey (l : List Section) : List Section :=
  l.insertionSort keyLe

mutual

/-- Structural size of a section tree: the number of `Section` nodes.
Used as the fuel bound for the sorter's fuel-indexed recursion. -/
def size : Section → Nat
  | .mk _ _ _ subs => 1 + sizeList subs

/-- Total size of a list of section trees. -/
def sizeList : List Section → Nat
  | [] => 0
  | s :: rest => size s + sizeList rest

end

@[simp] theorem size_mk (n d t subs) : size (Section.mk n d t subs) = 1 + sizeList subs := by
  rw [size]

@[simp] theorem sizeList_nil : sizeList [] = 0 := rfl

@[simp] theorem sizeList_cons (s : Section) (rest : List Section) :
    sizeList (s :: rest) = size s + sizeList rest := by
  rw [sizeList]

theorem size_pos (s : Section) : 1 ≤ size s := by
  cases s with
  | mk n d t subs => simp

theorem size_le_of_mem {c : Section} {l : List Section} (h : c ∈ l) :
    size c ≤ sizeList l := by
  induction l with
  | nil => cases h
  | cons s rest ih =>
    rcases List.mem_cons.mp h with h | h
    · subst h; simp
    · have := ih h; simp; omega

/-! ## Serializer: `Section.to_markdownesque`

`to_markdownesque` emits the header line rebuilt from `depth` and `name`,
then the stored `text` verbatim, then the subsections in their current
order. -/

mutual

/-- `Section.to_markdownesque` as a function to the emitted characters
(`render`/`renderList` are mutually recursive over the nested tree). -/
def render : Section → List Char
  | .mk n d t subs =>
    List.replicate d '#' ++ ' ' :: n ++ '\n' :: (t.flatten ++ renderList subs)

/-- Concatenation of the renderings of a list of sections (the
`"".join(sub.to_markdownesque() for sub in self.subsections)` part). -/
def renderList : List Section → List Char
  | [] => []
  | s :: rest => render s ++ renderList rest

end

@[simp] theorem renderList_nil : renderList [] = [] := rfl

@[simp] theorem renderList_cons (s : Section) (rest : List Section) :
    renderList (s :: rest) = render s ++ renderList rest := by
  rw [renderList]

theorem renderList_eq_flatten (l : List Section) :
    renderList l = (l.map render).flatten := by
  induction l with
  | nil => rfl
  | cons s rest ih => simp [ih]

/-- The natural recursion equation for `render`. -/
theorem render_eq (n : List Char) (d : Nat) (t : List (List Char)) (subs : List Section) :
    render (.mk n d t subs) =
      List.replicate d '#' ++ ' ' :: n ++ '\n' :: (t.flatten ++ (subs.map render).flatten) := by
  rw [render, renderList_eq_flatten]

theorem renderList_append (l₁ l₂ : List Section) :
    renderList (l₁ ++ l₂) = renderList l₁ ++ renderList l₂ := by
  simp [renderList_eq_flatten]

/-- Writing every root section's `to_markdownesque` in order, as the
source's output loop does. -/
def renderForest (roots : List Section) : List Char :=
  renderList roots

/-! ## Tree builder: `parse_file`

The source maintains `root_sections` and a `section_stack` of mutable
references; a new section is appended to its parent's `subsections` (or
to the roots) as soon as it is created, and is then mutated through the
stack while it is open.  Immutably, the same tree is obtained by keeping
open sections only on the stack (innermost first) and attaching each
section to the end of its parent's `subsections` (or of the root list)
when it is popped: children of one parent are closed in creation order,
and text/subsections are only ever appended at the end while a section is
the innermost open one. -/

/-- Append a closed child at the end of `subsections` (the position the
source gave it at creation time). -/
def withChild (parent child : Section) : Section :=
  .mk parent.name parent.depth parent.text (parent.subsections ++ [child])

/-- Append a text line at the end of `text` (as
`section_stack[-1].text.append(line)` does). -/
def withText (s : Section) (line : List Char) : Section :=
  .mk s.name s.depth (s.text ++ [line]) s.subsections

/-- `line.startswith("#")`. -/
def startsHash : List Char → Bool
  | [] => false
  | c :: _ => c = '#'

/-- `len(line) - len(line.lstrip("#"))`: the number of leading `#`. -/
def headerLevel (line : List Char) : Nat :=
  (line.takeWhile (fun c => c = '#')).length

/-- `line[header_level + 1:].strip()`: the header name (note the source
skips one character after the marker run whether or not it is a space). -/
def sectionName (line : List Char) : List Char :=
  pyStrip (line.drop (headerLevel line + 1))

/-- The `while section_stack and section_stack[-1].depth >= header_level:
section_stack.pop()` loop.  Sections with depth `≥ d` are popped; each
popped section is attached to the next one below it, and the last popped
section is attached to the surviving stack top, or appended to the root
list when the stack empties.  Returns the new roots and stack. -/
def popAttach (d : Nat) (roots stack : List Section) : List Section × List Section :=
  match stack.takeWhile (fun s => decide (d ≤ s.depth)) with
  | [] => (roots, stack)
  | s :: popped =>
    let closed := popped.foldl (fun child parent => withChild parent child) s
    match stack.dropWhile (fun s => decide (d ≤ s.depth)) with
    | [] => (roots ++ [closed], [])
    | p :: rest => (roots, withChild p closed :: rest)

/-- One iteration of the `for line in lines` loop of `parse_file`. -/
def parseStep (st : List Section × List Section) (line : List Char) :
    List Section × List Section :=
  if startsHash line then
    let d := headerLevel line
    let popped := popAttach d st.1 st.2
    (popped.1, Section.mk (sectionName line) d [] [] :: popped.2)
  else
    match st.2 with
    | [] => st
    | top :: rest => (st.1, withText top line :: rest)

/-- `parse_file`, on the list of lines read from the input (each line
keeps its terminator).  After the loop every still-open section is closed
(`popAttach 0` pops everything, since depths are positive); in the source
this closing is implicit in the mutation-based linking. -/
def parse_file (lines : List (List Char)) : List Section :=
  let st := lines.foldl parseStep ([], [])
  (popAttach 0 st.1 st.2).1

/-! ## The change report: `calculate_reshuffle_percentage`

The source computes the set of moved names with `difflib.ndiff` over the
before/after name lists and filters for lines tagged `"- "` or `"+ "`.
The model below follows Python's `difflib` (standard library, not part of
this repository): `findLongestMatch` is `SequenceMatcher.find_longest_match`
without junk (none arises for these inputs: `autojunk` only acts on
sequences of 200+ elements), with its documented tie-breaking (largest
block, then earliest in `a`, then earliest in `b`); `matchingBlocks`
recreates `get_matching_blocks`.  The names tagged `"- "`/`"+ "` by
`ndiff` are exactly the `a`-elements and `b`-elements outside the
matching blocks (`Differ`'s fancy replace only changes interleaving and
adds `"? "` hint lines, neither of which affects that set), which is what
`gapNames` collects. -/

/-- Length of the common prefix of two lists, capped at `cap`. -/
def commonLen : List (List Char) → List (List Char) → Nat → Nat
  | x :: xs, y :: ys, cap + 1 => if x = y then commonLen xs ys cap + 1 else 0
  | _, _, _ => 0

/-- `SequenceMatcher.find_longest_match` on `a[alo:ahi]` / `b[blo:bhi]`:
the longest matching block `(i, j, k)`, ties broken by smallest `i`, then
smallest `j`. -/
def findLongestMatch (a b : List (List Char)) (alo ahi blo bhi : Nat) : Nat × Nat × Nat :=
  (List.range' alo (ahi - alo)).foldl
    (fun best i =>
      (List.range' blo (bhi - blo)).foldl
        (fun best j =>
          let k := commonLen (a.drop i) (b.drop j) (min (ahi - i) (bhi - j))
          if best.2.2 < k then (i, j, k) else best)
        best)
    (alo, blo, 0)

/-- `SequenceMatcher.get_matching_blocks` (without the final sentinel and
the merging of adjacent blocks, which only affect grouping): recursively
split around the longest match.  Fuel-indexed; `matchingBlocks` supplies
ample fuel. -/
def matchingBlocksF : Nat → List (List Char) → List (List Char) →
    Nat → Nat → Nat → Nat → List (Nat × Nat × Nat)
  | 0, _, _, _, _, _, _ => []
  | f + 1, a, b, alo, ahi, blo, bhi =>
    let m := findLongestMatch a b alo ahi blo bhi
    if m.2.2 = 0 then []
    else
      matchingBlocksF f a b alo m.1 blo m.2.1 ++ m ::
        matchingBlocksF f a b (m.1 + m.2.2) ahi (m.2.1 + m.2.2) bhi

def matchingBlocks (a b : List (List Char)) : List (Nat × Nat × Nat) :=
  matchingBlocksF (a.length + b.length + 1) a b 0 a.length 0 b.length

/-- The names appearing on `"- "` or `"+ "` lines of `ndiff(a, b)`: all
elements of `a` and of `b` that lie between/outside the matching blocks,
walking the blocks with cursors `ai` into `a` and `bj` into `b`. -/
def gapNames (a b : List (List Char)) : List (Nat × Nat × Nat) → Nat → Nat →
    List (List Char)
  | [], ai, bj => (a.drop ai) ++ (b.drop bj)
  | (i, j, k) :: rest, ai, bj =>
    ((a.drop ai).take (i - ai)) ++ ((b.drop bj).take (j - bj)) ++
      gapNames a b rest (i + k) (j + k)

/-- The Python set `moved` (distinct names on tagged lines). -/
def movedNames (a b : List (List Char)) : List (List Char) :=
  (gapNames a b (matchingBlocks a b) 0 0).dedup

/-- Python's `round` on the exact rational `num / den` (round half to
even).  The source rounds the float `reshuffled / total * 100`; for the
tiny integer ratios involved the float is exact. -/
def pyRound (num den : Nat) : Nat :=
  let q := num / den
  let r := num % den
  if 2 * r < den then q else if den < 2 * r then q + 1 else if q % 2 = 0 then q else q + 1

/-- The numbers printed by one `calculate_reshuffle_percentage` call:
`{parent}:{sect}: alphabetized {reshuffled} out of {total} names
({percent}%)`. -/
structure Report where
  parent : List Char
  sect : List Char
  reshuffled : Nat
  total : Nat
  percent : Nat
deriving DecidableEq

/-- `calculate_reshuffle_percentage` (the printed summary line; the
per-name old/new position lines are derived from the same `moved` set). -/
def calculate_reshuffle_percentage (thisSection thisParent : List Char)
    (before afterL : List (List Char)) : Report :=
  let reshuffled := (movedNames before afterL).length
  ⟨thisParent, thisSection, reshuffled, before.length,
    pyRound (reshuffled * 100) before.length⟩

/-! ## Selective sorter: `Section.sort_subsections`

A section sorts its own `subsections` by the derived key iff its depth is
3, the parent name passed to it is in the configured list, and it has
subsections; if the name order changed, a report is produced.  It then
recurses into every subsection (in their new order), passing its own name
as the parent and the received parent as the grandparent.  The
grandparent argument is used by the source only in log text, so it does
not influence the result.  Fuel-indexed recursion over the nested tree;
the wrapper `Section.sort_subsections` supplies fuel `size s`. -/

/-- Whether a section of depth `d` whose parent argument is `p` sorts its
subsections (`self.depth == 3 and parent_section_name in sects_to_sort`,
with the inner `if self.subsections:` guard). -/
def isCandidate (cfg : List (List Char)) (p : List Char) (d : Nat)
    (subs : List Section) : Bool :=
  decide (d = 3 ∧ p ∈ cfg) && !subs.isEmpty

/-- The subsections after the conditional `self.subsections.sort(...)`. -/
def sortedSubs (cfg : List (List Char)) (p : List Char) (d : Nat)
    (subs : List Section) : List Section :=
  if isCandidate cfg p d subs then pySortByKey subs else subs

/-- The report of one `sort_subsections` body (empty unless the section
is a candidate whose name order changed). -/
def stepReports (cfg : List (List Char)) (p : List Char) (n : List Char) (d : Nat)
    (subs : List Section) : List Report :=
  if isCandidate cfg p d subs &&
      decide (subs.map Section.name ≠ (sortedSubs cfg p d subs).map Section.name) then
    [calculate_reshuffle_percentage n p (subs.map Section.name)
      ((sortedSubs cfg p d subs).map Section.name)]
  else []

def sortSubB : Nat → List (List Char) → List Char → Option (List Char) →
    Section → Section × List Report
  | 0, _, _, _, s => (s, [])
  | b + 1, cfg, p, _g, .mk n d t subs =>
    let pairs := (sortedSubs cfg p d subs).map (sortSubB b cfg n (some p))
    (.mk n d t (pairs.map Prod.fst), stepReports cfg p n d subs ++ (pairs.map Prod.snd).flatten)

/-- `Section.sort_subsections(parent, grandparent, sects_to_sort)`:
the mutated section together with the reports it prints. -/
def Section.sort_subsections (s : Section) (p : List Char) (g : Option (List Char))
    (cfg : List (List Char)) : Section × List Report :=
  sortSubB (size s) cfg p g s

/-! ## The driver loop

The `__main__` block runs, once per root section (a nested loop whose
outer variable is shadowed), a full pass over all roots: for each root of
depth 1, each of its subsections of depth 2 receives
`sort_subsections(subsection.name, None, sections_to_sort)`. -/

/-- One full pass of the inner loop, with the reports it prints. -/
def processPass (cfg : List (List Char)) (roots : List Section) :
    List Section × List Report :=
  let mapped := roots.map (fun sec =>
    if sec.depth = 1 then
      let subPairs := sec.subsections.map (fun sub =>
        if sub.depth = 2 then sub.sort_subsections sub.name none cfg else (sub, []))
      ((Section.mk sec.name sec.depth sec.text (subPairs.map Prod.fst) : Section),
        (subPairs.map Prod.snd).flatten)
    else (sec, []))
  (mapped.map Prod.fst, (mapped.map Prod.snd).flatten)

/-- The full driver: the pass is executed once per root section (the
duplicated loop), accumulating reports. -/
def main_run (cfg : List (List Char)) (roots : List Section) :
    List Section × List Report :=
  (fun st => let stepped := processPass cfg st.1; (stepped.1, st.2 ++ stepped.2))^[roots.length]
    (roots, [])

/-- The default `--sections` configuration. -/
def defaultSections : List (List Char) :=
  ["Speakers".data, "Organizers".data, "Mentors".data, "Getting Started".data]

/-! ## General lemmas about the sorter -/

theorem mem_sortedSubs {cfg p d} {subs : List Section} {c : Section}
    (h : c ∈ sortedSubs cfg p d subs) : c ∈ subs := by
  rw [sortedSubs] at h
  split at h
  · exact (List.mem_insertionSort keyLe).1 h
  · exact h

theorem sortedSubs_perm (cfg p d) (subs : List Section) :
    List.Perm subs (sortedSubs cfg p d subs) := by
  rw [sortedSubs]
  split
  · exact (List.perm_insertionSort keyLe subs).symm
  · exact List.Perm.refl subs

theorem sizeList_perm {l l' : List Section} (h : List.Perm l l') :
    sizeList l = sizeList l' := by
  induction h with
  | nil => rfl
  | cons x _ ih => simp [ih]
  | swap x y l => simp; omega
  | trans _ _ ih₁ ih₂ => omega

theorem sortSubB_fst_name (b cfg p g s) : (sortSubB b cfg p g s).1.name = s.name := by
  cases b <;> cases s <;> simp [sortSubB]

theorem sortSubB_fst_depth (b cfg p g s) : (sortSubB b cfg p g s).1.depth = s.depth := by
  cases b <;> cases s <;> simp [sortSubB]

theorem sortSubB_fst_text (b cfg p g s) : (sortSubB b cfg p g s).1.text = s.text := by
  cases b <;> cases s <;> simp [sortSubB]

/-- Fuel irrelevance: any fuel at least the tree size gives the same
result. -/
theorem sortSubB_irrel : ∀ (b : Nat), ∀ (b' : Nat) (cfg : List (List Char)) (p : List Char)
    (g : Option (List Char)) (s : Section), size s ≤ b → size s ≤ b' →
    sortSubB b cfg p g s = sortSubB b' cfg p g s := by
  intro b
  induction b using Nat.strong_induction_on with
  | _ b ih =>
    intro b' cfg p g s hb hb'
    have h1 := size_pos s
    cases s with
    | mk n d t subs =>
      cases b with
      | zero => omega
      | succ b0 =>
        cases b' with
        | zero => omega
        | succ b0' =>
          simp only [sortSubB]
          have harg : ∀ c ∈ sortedSubs cfg p d subs,
              sortSubB b0 cfg n (some p) c = sortSubB b0' cfg n (some p) c := by
            intro c hc
            have hm := mem_sortedSubs hc
            have hs := size_le_of_mem hm
            rw [size_mk] at hb hb'
            exact ih b0 (by omega) b0' cfg n (some p) c (by omega) (by omega)
          rw [List.map_congr_left harg]

/-- The natural recursion equation for `Section.sort_subsections`. -/
theorem sort_subsections_eq (n : List Char) (d : Nat) (t : List (List Char))
    (subs : List Section) (p : List Char) (g : Option (List Char)) (cfg : List (List Char)) :
    (Section.mk n d t subs).sort_subsections p g cfg =
      ((Section.mk n d t
          (((sortedSubs cfg p d subs).map
            (fun c => (c.sort_subsections n (some p) cfg).1)))) ,
        stepReports cfg p n d subs ++
          ((sortedSubs cfg p d subs).map
            (fun c => (c.sort_subsections n (some p) cfg).2)).flatten) := by
  rw [Section.sort_subsections]
  rw [show size (Section.mk n d t subs) = sizeList subs + 1 by rw [size_mk]; omega]
  simp only [sortSubB]
  have harg : ∀ c ∈ sortedSubs cfg p d subs,
      sortSubB (sizeList subs) cfg n (some p) c = c.sort_subsections n (some p) cfg := by
    intro c hc
    have hm := mem_sortedSubs hc
    have hs := size_le_of_mem hm
    rw [Section.sort_subsections]
    exact sortSubB_irrel _ _ _ _ _ _ hs le_rfl
  rw [List.map_congr_left harg]
  simp only [List.map_map]
  rfl

theorem sort_subsections_fst_name (s : Section) (p g cfg) :
    (s.sort_subsections p g cfg).1.name = s.name :=
  sortSubB_fst_name _ _ _ _ _

theorem sort_subsections_fst_depth (s : Section) (p g cfg) :
    (s.sort_subsections p g cfg).1.depth = s.depth :=
  sortSubB_fst_depth _ _ _ _ _

/-- The sorter preserves the structural size of the tree. -/
theorem sortSubB_fst_size : ∀ (b : Nat) (cfg : List (List Char)) (p : List Char)
    (g : Option (List Char)) (s : Section), size (sortSubB b cfg p g s).1 = size s := by
  intro b
  induction b with
  | zero => intro cfg p g s; rfl
  | succ b0 ih =>
    intro cfg p g s
    cases s with
    | mk n d t subs =>
      simp only [sortSubB, size_mk]
      have : ∀ l : List Section,
          sizeList (l.map (fun c => (sortSubB b0 cfg n (some p) c).1)) = sizeList l := by
        intro l
        induction l with
        | nil => rfl
        | cons c rest ihl => simp [ihl, ih]
      rw [List.map_map]
      have h2 := this (sortedSubs cfg p d subs)
      rw [show ((Prod.fst ∘ sortSubB b0 cfg n (some p))) =
        (fun c => (sortSubB b0 cfg n (some p) c).1) from rfl, h2,
        ← sizeList_perm (sortedSubs_perm cfg p d subs)]

/-! ## Round-trip lemmas -/

theorem render_withChild (p c : Section) :
    render (withChild p c) = render p ++ render c := by
  cases p with
  | mk n d t subs =>
    simp [withChild, render_eq, renderList_eq_flatten]

theorem render_withText (s : Section) (l : List Char) (h : s.subsections = []) :
    render (withText s l) = render s ++ l := by
  cases s with
  | mk n d t subs =>
    simp only [Section.subsections_mk] at h
    subst h
    simp [withText, render_eq]

theorem render_fresh (n : List Char) (d : Nat) :
    render (.mk n d [] []) = List.replicate d '#' ++ ' ' :: n ++ ['\n'] := by
  simp [render_eq]

/-- The characters a parser state will eventually contribute to the
output: closed roots first, then the open stack from outermost to
innermost (each still-open section's subtree will be appended at the end
of the section below it). -/
def renderState (roots stack : List Section) : List Char :=
  renderList roots ++ renderList stack.reverse

theorem render_collapse : ∀ (popped : List Section) (s : Section),
    render (popped.foldl (fun child parent => withChild parent child) s) =
      renderList popped.reverse ++ render s := by
  intro popped
  induction popped with
  | nil => intro s; simp
  | cons p rest ih =>
    intro s
    simp only [List.foldl_cons, List.reverse_cons]
    rw [ih (withChild p s), render_withChild, renderList_append]
    simp

theorem renderState_popAttach (d : Nat) (roots stack : List Section) :
    renderState (popAttach d roots stack).1 (popAttach d roots stack).2 =
      renderState roots stack := by
  rcases htw : stack.takeWhile (fun s => decide (d ≤ s.depth)) with _ | ⟨s, popped⟩
  · simp only [popAttach, htw]
  · have hsplit : stack = (s :: popped) ++ stack.dropWhile (fun s => decide (d ≤ s.depth)) := by
      rw [← htw, List.takeWhile_append_dropWhile]
    rcases hdw : stack.dropWhile (fun s => decide (d ≤ s.depth)) with _ | ⟨p, rest⟩
    · rw [hdw, List.append_nil] at hsplit
      simp only [popAttach, htw, hdw]
      rw [renderState, renderState, hsplit]
      simp only [List.reverse_nil, renderList_nil, List.append_nil, List.reverse_cons,
        renderList_append, renderList_cons]
      rw [render_collapse]
    · rw [hdw] at hsplit
      simp only [popAttach, htw, hdw]
      rw [renderState, renderState, hsplit]
      simp only [List.reverse_append, List.reverse_cons, List.reverse_nil, List.nil_append,
        renderList_append, renderList_cons, renderList_nil, List.append_nil]
      rw [render_withChild, render_collapse]
      simp

/-- A header line in the exact shape the serializer regenerates: the
marker run, one space, the trimmed name, a newline. -/
def canonicalHeader (l : List Char) : Bool :=
  decide (l = List.replicate (headerLevel l) '#' ++ ' ' :: sectionName l ++ ['\n'])

/-- All lines are faithful to the serializer's canonical shapes: header
lines are canonical, and text lines occur only after some header
(`seen` records whether a header has been consumed). -/
def goodFrom : Bool → List (List Char) → Bool
  | _, [] => true
  | seen, l :: ls =>
    if startsHash l then canonicalHeader l && goodFrom true ls
    else seen && goodFrom seen ls

/-- Inputs on which the build/render round trip is exact. -/
def GoodLines (lines : List (List Char)) : Bool :=
  goodFrom false lines

/-- The innermost open section has received no subsections yet (true
between any two parser steps). -/
def headOpen : List Section → Prop
  | [] => True
  | s :: _ => s.subsections = []

theorem goodFrom_cons (seen : Bool) (l : List Char) (ls : List (List Char)) :
    goodFrom seen (l :: ls) =
      if startsHash l then canonicalHeader l && goodFrom true ls
      else seen && goodFrom seen ls := by
  rw [goodFrom]

theorem parseStep_header {line : List Char} (h : startsHash line = true)
    (st : List Section × List Section) :
    parseStep st line =
      ((popAttach (headerLevel line) st.1 st.2).1,
        Section.mk (sectionName line) (headerLevel line) [] [] ::
          (popAttach (headerLevel line) st.1 st.2).2) := by
  rw [parseStep]
  simp [h]

theorem parseStep_text_cons {line : List Char} (h : startsHash line = false)
    (roots : List Section) (top : Section) (rest : List Section) :
    parseStep (roots, top :: rest) line = (roots, withText top line :: rest) := by
  rw [parseStep]
  simp [h]

theorem parse_renders_aux : ∀ (lines : List (List Char)) (roots stack : List Section)
    (seen : Bool), goodFrom seen lines = true → (stack = [] ↔ seen = false) →
    headOpen stack →
    renderState (lines.foldl parseStep (roots, stack)).1
        (lines.foldl parseStep (roots, stack)).2 =
      renderState roots stack ++ lines.flatten := by
  intro lines
  induction lines with
  | nil => intro roots stack seen _ _ _; simp
  | cons l ls ih =>
    intro roots stack seen hgood hseen hhead
    rw [goodFrom_cons] at hgood
    cases hhash : startsHash l with
    | false
    => -- text line
      simp only [hhash, Bool.false_eq_true, if_false, Bool.and_eq_true] at hgood
      obtain ⟨hseent, hgood'⟩ := hgood
      cases stack with
      | nil => rw [hseen.mp rfl] at hseent; cases hseent
      | cons top rest =>
        have hstep := parseStep_text_cons hhash roots top rest
        rw [List.foldl_cons, hstep]
        rw [ih roots (withText top l :: rest) seen (by rw [hseent]; rw [hseent] at hgood'; exact hgood')
          (by simp [hseent]) (by simpa [headOpen, withText] using hhead)]
        have hrend : renderState roots (withText top l :: rest) =
            renderState roots (top :: rest) ++ l := by
          simp only [renderState, List.reverse_cons, renderList_append, renderList_cons,
            renderList_nil, List.append_nil]
          rw [render_withText top l (by simpa [headOpen] using hhead)]
          simp
        rw [hrend]
        simp
    | true
    => -- header line
      simp only [hhash, if_true, Bool.and_eq_true] at hgood
      obtain ⟨hcanon, hgood'⟩ := hgood
      have hstep := parseStep_header hhash (roots, stack)
      rw [List.foldl_cons, hstep]
      rw [ih _ _ true hgood' (by simp) (by simp [headOpen])]
      have hrend : renderState (popAttach (headerLevel l) roots stack).1
          (Section.mk (sectionName l) (headerLevel l) [] [] ::
            (popAttach (headerLevel l) roots stack).2) =
          renderState roots stack ++ l := by
        simp only [renderState, List.reverse_cons, renderList_append, renderList_cons,
          renderList_nil, List.append_nil]
        rw [render_fresh]
        have hl : List.replicate (headerLevel l) '#' ++ ' ' :: sectionName l ++ ['\n'] = l :=
          (of_decide_eq_true hcanon).symm
        have h2 := renderState_popAttach (headerLevel l) roots stack
        simp only [renderState] at h2
        rw [← List.append_assoc, h2, hl]
      rw [hrend]
      simp

theorem popAttach_zero_snd (roots stack : List Section) :
    (popAttach 0 roots stack).2 = [] := by
  rw [popAttach]
  have htw : stack.takeWhile (fun s => decide (0 ≤ s.depth)) = stack :=
    List.takeWhile_eq_self_iff.mpr (fun a _ => by simp)
  have hdw : stack.dropWhile (fun s => decide (0 ≤ s.depth)) = [] :=
    List.dropWhile_eq_nil_iff.mpr (fun a _ => by simp)
  rw [htw, hdw]
  cases stack <;> simp

theorem renderList_popAttach_zero (roots stack : List Section) :
    renderList (popAttach 0 roots stack).1 = renderState roots stack := by
  have h := renderState_popAttach 0 roots stack
  rw [popAttach_zero_snd] at h
  simpa [renderState] using h

/-- Round trip on canonical inputs: building the forest and rendering it
unsorted reproduces the input text. -/
theorem parse_file_renders (lines : List (List Char)) (h : GoodLines lines = true) :
    renderForest (parse_file lines) = lines.flatten := by
  have haux := parse_renders_aux lines [] [] false h (by simp) trivial
  rw [renderForest, parse_file, renderList_popAttach_zero]
  simpa [renderState] using haux

/-! ## Stability of the sort -/

theorem filter_orderedInsert_key (k : List Char) (a : Section) (m : List Section) :
    (m.orderedInsert keyLe a).filter (fun c => decide (c.extract_last_name = k)) =
      if a.extract_last_name = k then
        a :: m.filter (fun c => decide (c.extract_last_name = k))
      else m.filter (fun c => decide (c.extract_last_name = k)) := by
  induction m with
  | nil =>
    rw [List.orderedInsert_nil]
    by_cases ha : a.extract_last_name = k
    · rw [if_pos ha]; simp [List.filter, ha]
    · rw [if_neg ha]; simp [List.filter, ha]
  | cons b m ih =>
    rw [List.orderedInsert]
    by_cases hab : keyLe a b
    · rw [if_pos hab]
      by_cases ha : a.extract_last_name = k
      · rw [if_pos ha]
        simp [List.filter_cons, ha]
      · rw [if_neg ha]
        simp [List.filter_cons, ha]
    · rw [if_neg hab]
      have hne : b.extract_last_name ≠ a.extract_last_name := by
        intro he
        exact hab (by rw [keyLe, he]; exact pyStrLe_refl _)
      by_cases ha : a.extract_last_name = k
      · have hb : ¬ b.extract_last_name = k := fun hbk => hne (hbk.trans ha.symm)
        rw [if_pos ha]
        rw [List.filter_cons, List.filter_cons, if_neg (by simpa using hb),
          if_neg (by simpa using hb), ih, if_pos ha]
      · rw [if_neg ha]
        rw [List.filter_cons, List.filter_cons, ih, if_neg ha]

theorem filter_pySortByKey_key (k : List Char) (l : List Section) :
    (pySortByKey l).filter (fun c => decide (c.extract_last_name = k)) =
      l.filter (fun c => decide (c.extract_last_name = k)) := by
  rw [pySortByKey]
  induction l with
  | nil => rfl
  | cons a l ih =>
    rw [List.insertionSort, filter_orderedInsert_key]
    by_cases ha : a.extract_last_name = k
    · rw [if_pos ha, ih, List.filter_cons, if_pos (by simpa using ha)]
    · rw [if_neg ha, ih, List.filter_cons, if_neg (by simpa using ha)]

theorem filter_sortedSubs_key (cfg p d) (subs : List Section) (k : List Char) :
    (sortedSubs cfg p d subs).filter (fun c => decide (c.extract_last_name = k)) =
      subs.filter (fun c => decide (c.extract_last_name = k)) := by
  rw [sortedSubs]
  split
  · exact filter_pySortByKey_key k subs
  · rfl

/-! ## The strict ancestor-depth invariant -/

/-- Every section is strictly shallower than each of its subsections,
recursively. -/
inductive WellDepth : Section → Prop where
  | node {n : List Char} {d : Nat} {t : List (List Char)} {subs : List Section} :
      (∀ c ∈ subs, d < c.depth) → (∀ c ∈ subs, WellDepth c) →
      WellDepth (.mk n d t subs)

theorem WellDepth.depth_lt {s c : Section} (h : WellDepth s)
    (hc : c ∈ s.subsections) : s.depth < c.depth := by
  cases h with
  | node h1 _ => exact h1 c hc

theorem WellDepth.sub {s c : Section} (h : WellDepth s)
    (hc : c ∈ s.subsections) : WellDepth c := by
  cases h with
  | node _ h2 => exact h2 c hc

theorem wellDepth_withText {s : Section} (h : WellDepth s) (l : List Char) :
    WellDepth (withText s l) := by
  cases s with
  | mk n d t subs =>
    cases h with
    | node h1 h2 => exact .node h1 h2

theorem wellDepth_withChild {p c : Section} (hp : WellDepth p) (hc : WellDepth c)
    (hlt : p.depth < c.depth) : WellDepth (withChild p c) := by
  cases p with
  | mk n d t subs =>
    cases hp with
    | node h1 h2 =>
      refine .node (fun x hx => ?_) (fun x hx => ?_) <;>
        rcases List.mem_append.mp hx with hx | hx
      · exact h1 x hx
      · rw [List.mem_singleton.mp hx]; exact hlt
      · exact h2 x hx
      · rw [List.mem_singleton.mp hx]; exact hc

/-- The stack of open sections is strictly decreasing in depth from the
innermost (head) to the outermost. -/
def StackDec (stack : List Section) : Prop :=
  List.Pairwise (fun a b => b.depth < a.depth) stack

theorem collapse_depth_ge (d : Nat) : ∀ (popped : List Section) (s : Section),
    d ≤ s.depth → (∀ p ∈ popped, d ≤ p.depth) →
    d ≤ (popped.foldl (fun child parent => withChild parent child) s).depth := by
  intro popped
  induction popped with
  | nil => intro s hs _; exact hs
  | cons p1 rest ih =>
    intro s _ hp
    rw [List.foldl_cons]
    exact ih (withChild p1 s) (by simpa [withChild] using hp p1 (by simp))
      (fun p hm => hp p (by simp [hm]))

theorem collapse_wellDepth : ∀ (popped : List Section) (s : Section),
    WellDepth s → (∀ p ∈ popped, WellDepth p) →
    List.Pairwise (fun a b => b.depth < a.depth) (s :: popped) →
    WellDepth (popped.foldl (fun child parent => withChild parent child) s) := by
  intro popped
  induction popped with
  | nil => intro s hs _ _; exact hs
  | cons p1 rest ih =>
    intro s hs hp hpair
    rw [List.foldl_cons]
    rcases List.pairwise_cons.mp hpair with ⟨hrel, hpair'⟩
    rcases List.pairwise_cons.mp hpair' with ⟨hrel1, hpairrest⟩
    refine ih (withChild p1 s)
      (wellDepth_withChild (hp p1 (by simp)) hs (hrel p1 (by simp)))
      (fun p hm => hp p (by simp [hm])) ?_
    refine List.pairwise_cons.mpr ⟨fun x hx => ?_, hpairrest⟩
    simpa [withChild] using hrel1 x hx

/-- `popAttach` preserves well-depth of everything, keeps the stack
strictly decreasing, and leaves only sections shallower than `d` on the
stack. -/
theorem popAttach_inv (d : Nat) (roots stack : List Section)
    (hr : ∀ s ∈ roots, WellDepth s) (hs : ∀ s ∈ stack, WellDepth s)
    (hdec : StackDec stack) :
    (∀ s ∈ (popAttach d roots stack).1, WellDepth s) ∧
    (∀ s ∈ (popAttach d roots stack).2, WellDepth s) ∧
    StackDec (popAttach d roots stack).2 ∧
    (∀ s ∈ (popAttach d roots stack).2, s.depth < d) := by
  rcases htw : stack.takeWhile (fun s => decide (d ≤ s.depth)) with _ | ⟨s, popped⟩
  · simp only [popAttach, htw]
    refine ⟨hr, hs, hdec, fun x hx => ?_⟩
    cases stack with
    | nil => cases hx
    | cons top rest =>
      rw [List.takeWhile_cons] at htw
      split at htw
      · cases htw
      · rename_i hpred
        have htop : top.depth < d := by
          by_contra hcon
          exact hpred (by simpa using Nat.le_of_not_lt hcon)
        rcases List.mem_cons.mp hx with hx | hx
        · rw [hx]; exact htop
        · exact lt_trans ((List.pairwise_cons.mp hdec).1 x hx) htop
  · have hsub := List.takeWhile_sublist (l := stack) (fun s => decide (d ≤ s.depth))
    rw [htw] at hsub
    have hpairtw : List.Pairwise (fun a b => b.depth < a.depth) (s :: popped) :=
      hdec.sublist hsub
    have hwdtw : ∀ x ∈ s :: popped, WellDepth x := fun x hx => hs x (hsub.mem hx)
    have hgetw : ∀ x ∈ s :: popped, d ≤ x.depth := by
      intro x hx
      have := List.mem_takeWhile_imp (htw ▸ hx)
      simpa using this
    have hclosedw : WellDepth (popped.foldl (fun child parent => withChild parent child) s) :=
      collapse_wellDepth popped s (hwdtw s (by simp))
        (fun p hm => hwdtw p (by simp [hm])) hpairtw
    have hclosedd : d ≤ (popped.foldl (fun child parent => withChild parent child) s).depth :=
      collapse_depth_ge d popped s (hgetw s (by simp)) (fun p hm => hgetw p (by simp [hm]))
    rcases hdw : stack.dropWhile (fun s => decide (d ≤ s.depth)) with _ | ⟨p, rest⟩
    · simp only [popAttach, htw, hdw]
      refine ⟨fun x hx => ?_, by simp, by simp [StackDec], by simp⟩
      rcases List.mem_append.mp hx with hx | hx
      · exact hr x hx
      · rw [List.mem_singleton.mp hx]; exact hclosedw
    · have hdsub := List.dropWhile_sublist (l := stack) (fun s => decide (d ≤ s.depth))
      rw [hdw] at hdsub
      have hpairdw : List.Pairwise (fun a b => b.depth < a.depth) (p :: rest) :=
        hdec.sublist hdsub
      have hpd : p.depth < d := by
        have hne : stack.dropWhile (fun s => decide (d ≤ s.depth)) ≠ [] := by
          rw [hdw]; exact List.cons_ne_nil _ _
        have h2 := List.head_dropWhile_not (fun s => decide (d ≤ s.depth)) stack hne
        simp only [hdw, List.head_cons] at h2
        exact Nat.lt_of_not_le (of_decide_eq_false h2)
      simp only [popAttach, htw, hdw]
      refine ⟨hr, fun x hx => ?_, ?_, fun x hx => ?_⟩
      · rcases List.mem_cons.mp hx with hx | hx
        · rw [hx]
          exact wellDepth_withChild (hs p (hdsub.mem (by simp))) hclosedw
            (lt_of_lt_of_le hpd hclosedd)
        · exact hs x (hdsub.mem (by simp [hx]))
      · rw [StackDec]
        refine List.pairwise_cons.mpr ⟨fun x hx => ?_, (List.pairwise_cons.mp hpairdw).2⟩
        simpa [withChild] using (List.pairwise_cons.mp hpairdw).1 x hx
      · rcases List.mem_cons.mp hx with hx | hx
        · rw [hx]; simpa [withChild] using hpd
        · exact lt_trans ((List.pairwise_cons.mp hpairdw).1 x hx) hpd

theorem parse_inv : ∀ (lines : List (List Char)) (roots stack : List Section),
    (∀ s ∈ roots, WellDepth s) → (∀ s ∈ stack, WellDepth s) → StackDec stack →
    (∀ s ∈ (lines.foldl parseStep (roots, stack)).1, WellDepth s) ∧
    (∀ s ∈ (lines.foldl parseStep (roots, stack)).2, WellDepth s) ∧
    StackDec (lines.foldl parseStep (roots, stack)).2 := by
  intro lines
  induction lines with
  | nil => intro roots stack hr hs hdec; exact ⟨hr, hs, hdec⟩
  | cons l ls ih =>
    intro roots stack hr hs hdec
    cases hhash : startsHash l with
    | false =>
      cases stack with
      | nil =>
        have hstep : parseStep (roots, ([] : List Section)) l = (roots, []) := by
          rw [parseStep]; simp [hhash]
        rw [List.foldl_cons, hstep]
        exact ih roots [] hr hs hdec
      | cons top rest =>
        rw [List.foldl_cons, parseStep_text_cons hhash roots top rest]
        refine ih _ _ hr (fun x hx => ?_) ?_
        · rcases List.mem_cons.mp hx with hx | hx
          · rw [hx]; exact wellDepth_withText (hs top (by simp)) l
          · exact hs x (by simp [hx])
        · rcases List.pairwise_cons.mp hdec with ⟨h1, h2⟩
          exact List.pairwise_cons.mpr
            ⟨fun x hx => by simpa [withText] using h1 x hx, h2⟩
    | true =>
      rw [List.foldl_cons, parseStep_header hhash (roots, stack)]
      obtain ⟨ha, hb, hc, hd⟩ := popAttach_inv (headerLevel l) roots stack hr hs hdec
      refine ih _ _ ha (fun x hx => ?_) ?_
      · rcases List.mem_cons.mp hx with hx | hx
        · rw [hx]
          exact .node (fun c hc => absurd hc (List.not_mem_nil c))
            (fun c hc => absurd hc (List.not_mem_nil c))
        · exact hb x hx
      · exact List.pairwise_cons.mpr ⟨fun x hx => by simpa using hd x hx, hc⟩

/-- Every section produced by the tree builder satisfies the strict
ancestor-depth invariant. -/
theorem parse_file_wellDepth (lines : List (List Char)) :
    ∀ s ∈ parse_file lines, WellDepth s := by
  obtain ⟨ha, hb, hc⟩ := parse_inv lines [] []
    (by simp) (by simp) (by rw [StackDec]; exact List.Pairwise.nil)
  rw [parse_file]
  obtain ⟨h1, _, _, _⟩ := popAttach_inv 0 _ _ ha hb hc
  exact h1

/-! ## The frame relation preserved by sorting -/

/-- Two sections with the same `name`, `depth` and `text` whose
subsection lists are permutations of each other, matched pairwise by the
same relation: the only change is the order inside `subsections` lists
(no node created, deleted, or field-edited). -/
inductive SameFrame : Section → Section → Prop where
  | node {n : List Char} {d : Nat} {t : List (List Char)} {subs subs' mid : List Section} :
      List.Perm subs mid → List.Forall₂ SameFrame mid subs' →
      SameFrame (.mk n d t subs) (.mk n d t subs')

theorem sameFrame_refl_aux : ∀ (b : Nat) (s : Section), size s ≤ b → SameFrame s s := by
  intro b
  induction b with
  | zero => intro s h; have := size_pos s; omega
  | succ b0 ih =>
    intro s h
    cases s with
    | mk n d t subs =>
      refine .node (List.Perm.refl subs) (List.forall₂_same.mpr (fun x hx => ?_))
      have hle := size_le_of_mem hx
      rw [size_mk] at h
      exact ih x (by omega)

theorem SameFrame.refl (s : Section) : SameFrame s s :=
  sameFrame_refl_aux (size s) s le_rfl

theorem sortSubB_frame : ∀ (b : Nat) (cfg : List (List Char)) (p : List Char)
    (g : Option (List Char)) (s : Section), SameFrame s (sortSubB b cfg p g s).1 := by
  intro b
  induction b with
  | zero => intro cfg p g s; exact SameFrame.refl s
  | succ b0 ih =>
    intro cfg p g s
    cases s with
    | mk n d t subs =>
      simp only [sortSubB, List.map_map]
      refine SameFrame.node (sortedSubs_perm cfg p d subs) ?_
      rw [List.forall₂_map_right_iff]
      exact List.forall₂_same.mpr (fun c _ => ih cfg n (some p) c)

theorem sort_subsections_frame (s : Section) (p : List Char) (g : Option (List Char))
    (cfg : List (List Char)) : SameFrame s (s.sort_subsections p g cfg).1 :=
  sortSubB_frame _ _ _ _ _

/-- The forest component of one driver pass, in closed form. -/
theorem processPass_fst (cfg : List (List Char)) (roots : List Section) :
    (processPass cfg roots).1 = roots.map (fun sec =>
      if sec.depth = 1 then
        Section.mk sec.name sec.depth sec.text (sec.subsections.map (fun sub =>
          if sub.depth = 2 then (sub.sort_subsections sub.name none cfg).1 else sub))
      else sec) := by
  rw [processPass]
  simp only [List.map_map]
  apply List.map_congr_left
  intro sec _
  by_cases hdep : sec.depth = 1
  · simp only [Function.comp_apply, hdep, if_true, eq_self_iff_true, List.map_map]
    congr 1
    apply List.map_congr_left
    intro sub _
    by_cases h2 : sub.depth = 2
    · simp [h2]
    · simp [h2]
  · simp [Function.comp_apply, hdep]

theorem processPass_frame (cfg : List (List Char)) (roots : List Section) :
    List.Forall₂ SameFrame roots (processPass cfg roots).1 := by
  rw [processPass_fst, List.forall₂_map_right_iff]
  refine List.forall₂_same.mpr (fun sec _ => ?_)
  by_cases hdep : sec.depth = 1
  · rw [if_pos hdep]
    cases sec with
    | mk n d t subs =>
      refine SameFrame.node (List.Perm.refl subs) ?_
      simp only [Section.subsections_mk, List.forall₂_map_right_iff]
      refine List.forall₂_same.mpr (fun sub _ => ?_)
      by_cases h2 : sub.depth = 2
      · rw [if_pos h2]; exact sort_subsections_frame sub sub.name none cfg
      · rw [if_neg h2]; exact SameFrame.refl sub
  · rw [if_neg hdep]; exact SameFrame.refl sec

/-! ## Idempotence of the pass -/

theorem sorted_pySortByKey (l : List Section) : List.Sorted keyLe (pySortByKey l) :=
  List.sorted_insertionSort keyLe l

theorem sorted_map_keyPreserving {l : List Section} (h : List.Sorted keyLe l)
    (f : Section → Section) (hf : ∀ c, (f c).extract_last_name = c.extract_last_name) :
    List.Sorted keyLe (l.map f) :=
  List.Pairwise.map f
    (fun a b hab => show keyLe (f a) (f b) by rw [keyLe, hf, hf]; exact hab) h

theorem isCandidate_congr (cfg p d) {subs subs' : List Section}
    (h : subs.length = subs'.length) :
    isCandidate cfg p d subs = isCandidate cfg p d subs' := by
  rw [isCandidate, isCandidate]
  cases subs with
  | nil => cases subs' with
    | nil => rfl
    | cons x xs => simp at h
  | cons x xs => cases subs' with
    | nil => simp at h
    | cons y ys => rfl

theorem length_sortedSubs (cfg p d) (subs : List Section) :
    (sortedSubs cfg p d subs).length = subs.length :=
  ((sortedSubs_perm cfg p d subs).length_eq).symm

/-- Re-running the sorter on an already-sorted tree changes nothing
(forest component). -/
theorem sortSubB_idem : ∀ (b : Nat) (cfg : List (List Char)) (p : List Char)
    (g g' : Option (List Char)) (s : Section), size s ≤ b →
    (sortSubB b cfg p g' (sortSubB b cfg p g s).1).1 = (sortSubB b cfg p g s).1 := by
  intro b
  induction b with
  | zero => intro cfg p g g' s h; have := size_pos s; omega
  | succ b0 ih =>
    intro cfg p g g' s hb
    cases s with
    | mk n d t subs =>
      rw [size_mk] at hb
      simp only [sortSubB, List.map_map, Function.comp_def]
      have hsizes : ∀ c ∈ sortedSubs cfg p d subs, size c ≤ b0 := fun c hc => by
        have := size_le_of_mem (mem_sortedSubs hc)
        omega
      set F : Section → Section := fun c => (sortSubB b0 cfg n (some p) c).1 with hF
      have hkey : ∀ c, (F c).extract_last_name = c.extract_last_name := fun c => by
        rw [extract_last_name_eq_nameKey, extract_last_name_eq_nameKey, hF]
        rw [sortSubB_fst_name]
      have hchild : sortedSubs cfg p d ((sortedSubs cfg p d subs).map F) =
          (sortedSubs cfg p d subs).map F := by
        have hcand : isCandidate cfg p d ((sortedSubs cfg p d subs).map F) =
            isCandidate cfg p d subs := by
          apply isCandidate_congr
          rw [List.length_map, length_sortedSubs]
        rw [sortedSubs, hcand]
        cases hc : isCandidate cfg p d subs with
        | false => rw [if_neg (by simp [hc])]
        | true =>
          rw [if_pos (by simp)]
          apply List.Sorted.insertionSort_eq
          apply sorted_map_keyPreserving _ F hkey
          rw [sortedSubs, if_pos (by simp [hc])]
          exact sorted_pySortByKey subs
      conv_lhs => rw [hchild]
      rw [List.map_map]
      congr 1
      apply List.map_congr_left
      intro c hc
      exact ih cfg n (some p) (some p) c (hsizes c hc)

theorem sort_subsections_idem (cfg : List (List Char)) (p : List Char)
    (g g' : Option (List Char)) (s : Section) :
    (((s.sort_subsections p g cfg).1).sort_subsections p g' cfg).1 =
      (s.sort_subsections p g cfg).1 := by
  simp only [Section.sort_subsections]
  rw [show size (sortSubB (size s) cfg p g s).1 = size s from sortSubB_fst_size _ _ _ _ _]
  exact sortSubB_idem (size s) cfg p g g' s le_rfl

/-- One driver pass is idempotent on the forest. -/
theorem processPass_idem (cfg : List (List Char)) (roots : List Section) :
    (processPass cfg (processPass cfg roots).1).1 = (processPass cfg roots).1 := by
  rw [processPass_fst, processPass_fst, List.map_map]
  apply List.map_congr_left
  intro sec _
  simp only [Function.comp_apply]
  by_cases hdep : sec.depth = 1
  · rw [if_pos hdep]
    rw [if_pos (by simpa using hdep)]
    simp only [Section.subsections_mk, Section.name_mk, Section.depth_mk, Section.text_mk,
      List.map_map]
    congr 1
    apply List.map_congr_left
    intro sub _
    simp only [Function.comp_apply]
    by_cases h2 : sub.depth = 2
    · rw [if_pos h2]
      rw [if_pos (by rw [sort_subsections_fst_depth]; exact h2)]
      rw [show ((sub.sort_subsections sub.name none cfg).1).name = sub.name from
        sort_subsections_fst_name _ _ _ _]
      exact sort_subsections_idem cfg sub.name none none sub
    · rw [if_neg h2, if_neg h2]
  · rw [if_neg hdep, if_neg hdep]

theorem main_run_fst_iterate (cfg : List (List Char)) : ∀ (m : Nat)
    (st : List Section × List Report),
    (((fun st => let stepped := processPass cfg st.1; (stepped.1, st.2 ++ stepped.2))^[m]) st).1 =
      ((fun rs => (processPass cfg rs).1)^[m]) st.1 := by
  intro m
  induction m with
  | zero => intro st; rfl
  | succ m0 ih =>
    intro st
    rw [Function.iterate_succ_apply, Function.iterate_succ_apply]
    exact ih _

theorem pass_iterate_eq (cfg : List (List Char)) (roots : List Section) : ∀ (m : Nat),
    ((fun rs => (processPass cfg rs).1)^[m]) ((processPass cfg roots).1) =
      (processPass cfg roots).1 := by
  intro m
  induction m with
  | zero => rfl
  | succ m0 ih =>
    rw [Function.iterate_succ_apply]
    rw [processPass_idem]
    exact ih

/-- The duplicated outer loop makes no difference: the driver's final
forest equals the forest after a single pass. -/
theorem main_run_forest_eq_single_pass (cfg : List (List Char)) (roots : List Section) :
    (main_run cfg roots).1 = (processPass cfg roots).1 := by
  rw [main_run, main_run_fst_iterate]
  cases hlen : roots.length with
  | zero =>
    rw [List.length_eq_zero.mp hlen]
    rfl
  | succ m =>
    rw [Function.iterate_succ_apply]
    exact pass_iterate_eq cfg roots m

/-! ## Counting sections: every `#`-line becomes a node -/

theorem sizeList_append (l₁ l₂ : List Section) :
    sizeList (l₁ ++ l₂) = sizeList l₁ + sizeList l₂ := by
  induction l₁ with
  | nil => simp
  | cons s rest ih => simp [ih]; omega

theorem size_withChild (p c : Section) : size (withChild p c) = size p + size c := by
  cases p with
  | mk n d t subs =>
    simp [withChild, sizeList_append]
    omega

theorem size_withText (s : Section) (l : List Char) : size (withText s l) = size s := by
  cases s with
  | mk n d t subs => simp [withText]

theorem size_collapse : ∀ (popped : List Section) (s : Section),
    size (popped.foldl (fun child parent => withChild parent child) s) =
      size s + sizeList popped := by
  intro popped
  induction popped with
  | nil => intro s; simp
  | cons p1 rest ih =>
    intro s
    rw [List.foldl_cons, ih, size_withChild]
    simp
    omega

theorem popAttach_size (d : Nat) (roots stack : List Section) :
    sizeList (popAttach d roots stack).1 + sizeList (popAttach d roots stack).2 =
      sizeList roots + sizeList stack := by
  rcases htw : stack.takeWhile (fun s => decide (d ≤ s.depth)) with _ | ⟨s, popped⟩
  · simp only [popAttach, htw]
  · have hsplit : stack = (s :: popped) ++ stack.dropWhile (fun s => decide (d ≤ s.depth)) := by
      rw [← htw, List.takeWhile_append_dropWhile]
    rcases hdw : stack.dropWhile (fun s => decide (d ≤ s.depth)) with _ | ⟨p, rest⟩
    · rw [hdw, List.append_nil] at hsplit
      simp only [popAttach, htw, hdw]
      rw [hsplit, sizeList_append]
      simp only [sizeList_cons, sizeList_nil, size_collapse]
      omega
    · rw [hdw] at hsplit
      simp only [popAttach, htw, hdw]
      rw [hsplit, sizeList_append]
      simp only [sizeList_cons, size_withChild, size_collapse]
      omega

theorem parse_size_aux : ∀ (lines : List (List Char)) (roots stack : List Section),
    sizeList (lines.foldl parseStep (roots, stack)).1 +
        sizeList (lines.foldl parseStep (roots, stack)).2 =
      sizeList roots + sizeList stack +
        (lines.filter (fun l => startsHash l)).length := by
  intro lines
  induction lines with
  | nil => intro roots stack; simp
  | cons l ls ih =>
    intro roots stack
    cases hhash : startsHash l with
    | false =>
      rw [List.filter_cons, if_neg (by simp [hhash])]
      cases stack with
      | nil =>
        have hstep : parseStep (roots, ([] : List Section)) l = (roots, []) := by
          rw [parseStep]; simp [hhash]
        rw [List.foldl_cons, hstep]
        exact ih roots []
      | cons top rest =>
        rw [List.foldl_cons, parseStep_text_cons hhash roots top rest, ih]
        simp [size_withText]
    | true =>
      rw [List.filter_cons, if_pos (by simp [hhash])]
      rw [List.foldl_cons, parseStep_header hhash (roots, stack), ih]
      have hpop := popAttach_size (headerLevel l) roots stack
      simp only [sizeList_cons, size_mk, sizeList_nil, List.length_cons]
      omega

/-- Every line starting with `#` produces exactly one `Section` node. -/
theorem parse_file_size (lines : List (List Char)) :
    sizeList (parse_file lines) =
      (lines.filter (fun l => startsHash l)).length := by
  rw [parse_file]
  have haux := parse_size_aux lines [] []
  have hpop := popAttach_size 0 (lines.foldl parseStep ([], [])).1
    (lines.foldl parseStep ([], [])).2
  rw [popAttach_zero_snd] at hpop
  simp only [sizeList_nil] at haux hpop ⊢
  omega

/-! ## Concrete example inputs -/

/-- The spec's end-to-end example document. -/
def exampleLines : List (List Char) :=
  ["# Root\n".data, "## Speakers\n".data, "### City\n".data,
   "#### Zed Young\n".data, "#### Anna Park\n".data, "## Other\n".data,
   "### City\n".data, "#### Zed Young\n".data, "#### Anna Park\n".data]

/-- A depth-3 section directly under a depth-1 root whose name is in the
sortable set. -/
def skipLevelLines : List (List Char) :=
  ["# Speakers\n".data, "### City\n".data, "#### Zed Young\n".data,
   "#### Anna Park\n".data]

/-- The names of the sections reached by following a path of child
indices from the forest roots (names of that node's subsections; the
empty path gives the root names). -/
def namesAt (roots : List Section) (path : List Nat) : List (List Char) :=
  match path with
  | [] => roots.map Section.name
  | i :: rest => namesAt ((roots.drop i).headD (.mk [] 0 [] [])).subsections rest

/-! ## Supporting lemmas for the amended sorter-reach claim -/

/-- At a depth-3 node whose parent argument is in the configured set, the
sorter's recursive call does reorder the children by the derived key. -/
theorem sorter_sorts_candidates (cfg : List (List Char)) (p : List Char)
    (g : Option (List Char)) (n : List Char) (d : Nat) (t : List (List Char))
    (subs : List Section) (h3 : d = 3) (hp : p ∈ cfg) :
    (((Section.mk n d t subs).sort_subsections p g cfg).1.subsections).map Section.name =
      (pySortByKey subs).map Section.name := by
  rw [sort_subsections_eq]
  simp only [Section.subsections_mk, List.map_map]
  rw [List.map_congr_left
    (fun c _ => show (Section.name ∘ fun c => (c.sort_subsections n (some p) cfg).1) c =
      Section.name c from sort_subsections_fst_name c n (some p) cfg)]
  cases subs with
  | nil => simp [sortedSubs, isCandidate, pySortByKey]
  | cons c rest =>
    rw [sortedSubs, if_pos (by simp [isCandidate, h3, hp])]

/-- Roots of depth other than 1 are untouched by the pass. -/
theorem processPass_keeps_other_roots (cfg : List (List Char)) (roots : List Section) :
    List.Forall₂ (fun r r' => r.depth ≠ 1 → r' = r) roots (processPass cfg roots).1 := by
  rw [processPass_fst, List.forall₂_map_right_iff]
  refine List.forall₂_same.mpr (fun sec _ h1 => ?_)
  rw [if_neg h1]

/-- Under a depth-1 root, subsections of depth other than 2 are untouched
by the pass. -/
theorem processPass_keeps_other_subs (cfg : List (List Char)) (roots : List Section) :
    List.Forall₂ (fun r r' => r.depth = 1 →
      List.Forall₂ (fun c c' => c.depth ≠ 2 → c' = c) r.subsections r'.subsections)
      roots (processPass cfg roots).1 := by
  rw [processPass_fst, List.forall₂_map_right_iff]
  refine List.forall₂_same.mpr (fun sec _ h1 => ?_)
  rw [if_pos h1]
  simp only [Section.subsections_mk, List.forall₂_map_right_iff]
  refine List.forall₂_same.mpr (fun sub _ h2 => ?_)
  rw [if_neg h2]

/-! ## Claims -/

/-- C1 (counterexample): the round trip is not the identity on every
input: a text line before any header is dropped, so rendering the forest
built from `["hello\n"]` yields the empty output, not `"hello\n"`. -/
theorem claim1_round_trip_fails_on_preamble :
    renderForest (parse_file ["hello\n".data]) ≠ ["hello\n".data].flatten := by
  decide

/-- C1 (amended): for every input whose lines are all either canonical
header lines (a marker run, one separating space, an already-trimmed
name, a newline) or text lines preceded by some header line, building the
forest and rendering it without sorting reproduces the input byte for
byte. -/
theorem claim1_round_trip_on_canonical_input (lines : List (List Char))
    (h : GoodLines lines = true) :
    renderForest (parse_file lines) = lines.flatten :=
  parse_file_renders lines h

theorem claim1_round_trip_witness :
    GoodLines exampleLines = true ∧
      renderForest (parse_file exampleLines) = exampleLines.flatten :=
  ⟨by decide, claim1_round_trip_on_canonical_input exampleLines (by decide)⟩

/-- C2 (counterexample): on the nine-line example with sortable set
`{Speakers}` the emitted report says 1 of 2 names moved (50%), not 100%
of 2: `difflib.ndiff` keeps one of the two swapped names as the matched
block, so only the other is tagged as moved. -/
theorem claim2_report_counterexample :
    (main_run ["Speakers".data] (parse_file exampleLines)).2.map Report.reshuffled = [1] ∧
    (main_run ["Speakers".data] (parse_file exampleLines)).2.map Report.percent = [50] ∧
    ¬ ((main_run ["Speakers".data] (parse_file exampleLines)).2.map Report.percent = [100]) := by
  decide

/-- C2 (amended): on the nine-line example with sortable set `{Speakers}`
the children of City under Speakers are reordered to
`[Anna Park, Zed Young]`, the children of City under Other stay
`[Zed Young, Anna Park]`, and the single emitted report (for
Speakers>City) states that 1 of its 2 entries moved, 50%. -/
theorem claim2_end_to_end_example :
    namesAt (main_run ["Speakers".data] (parse_file exampleLines)).1 [0, 0, 0] =
      ["Anna Park".data, "Zed Young".data] ∧
    namesAt (main_run ["Speakers".data] (parse_file exampleLines)).1 [0, 1, 0] =
      ["Zed Young".data, "Anna Park".data] ∧
    (main_run ["Speakers".data] (parse_file exampleLines)).2 =
      [⟨"Speakers".data, "City".data, 1, 2, 50⟩] := by
  decide

/-- C3 (code evaluated at the failing input): text lines before the first
header are silently dropped by `parse_file` (the `if section_stack:` guard
discards them), so the transform's output for `["hello\n", "# A\n"]` is
just `"# A\n"` and no section carries the preamble line. -/
theorem claim3_preamble_dropped :
    renderForest (parse_file ["hello\n".data, "# A\n".data]) = "# A\n".data ∧
    (parse_file ["hello\n".data, "# A\n".data]).map Section.text = [[]] := by
  decide

/-- C4 (counterexample): a line whose marker run is not followed by a
space is NOT treated as plain text: `"#Intro\n"` becomes a new header
Section (named `"ntro"`, the character after the marker run being
skipped), it is not appended to the text of the current section, and the
forest has two sections instead of one. -/
theorem claim4_no_space_marker_counterexample :
    (parse_file ["# A\n".data, "#Intro\n".data]).map (fun s => (s.name, s.depth, s.text)) =
      [("A".data, 1, ([] : List (List Char))), ("ntro".data, 1, [])] ∧
    (parse_file ["# A\n".data, "#Intro\n".data]).length = 2 := by
  decide

/-- C4 (amended): every line starting with a marker character is treated
as a header, with or without a separating space, and no error is raised:
the number of Section nodes built equals the number of input lines
starting with `#`, and a no-space line such as `"#Intro\n"` yields a
header whose name drops the character right after the marker run. -/
theorem claim4_marker_lines_always_headers :
    (∀ lines : List (List Char),
      sizeList (parse_file lines) = (lines.filter (fun l => startsHash l)).length) ∧
    (parse_file ["#Intro\n".data]).map (fun s => (s.name, s.depth)) = [("ntro".data, 1)] :=
  ⟨parse_file_size, by decide⟩

/-- C5 (counterexample): a depth-3 section with a matching parent name is
NOT always sorted: in `["# Speakers\n", "### City\n", "#### Zed Young\n",
"#### Anna Park\n"]` the City section has depth 3 and its parent Speakers
is in the sortable set, yet after the driver its children remain
`[Zed Young, Anna Park]` although the derived keys demand the swapped
order — the driver only enters the sorter at depth-2 subsections of
depth-1 roots. -/
theorem claim5_reach_counterexample :
    (parse_file skipLevelLines).map
        (fun r => (r.name, r.depth, r.subsections.map (fun c => (c.name, c.depth)))) =
      [("Speakers".data, 1, [("City".data, 3)])] ∧
    namesAt (main_run ["Speakers".data] (parse_file skipLevelLines)).1 [0, 0] =
      ["Zed Young".data, "Anna Park".data] ∧
    pyStrLe (nameKey "Anna Park".data) (nameKey "Zed Young".data) = true ∧
    "Zed Young".data ≠ "Anna Park".data := by
  decide

/-- C5 (amended): the recursive sorter itself sorts the children of every
depth-3 node it reaches whose parent argument is in the configured set,
but the driver only invokes it on depth-2 subsections of depth-1 roots:
roots of other depths are untouched, and so are subsections of depth-1
roots whose depth is not 2 (e.g. a depth-3 child of a depth-1 root). -/
theorem claim5_sorter_reach_amended :
    (∀ (cfg : List (List Char)) (p : List Char) (g : Option (List Char))
      (n : List Char) (d : Nat) (t : List (List Char)) (subs : List Section),
      d = 3 → p ∈ cfg →
      (((Section.mk n d t subs).sort_subsections p g cfg).1.subsections).map Section.name =
        (pySortByKey subs).map Section.name) ∧
    (∀ (cfg : List (List Char)) (roots : List Section),
      List.Forall₂ (fun r r' => r.depth ≠ 1 → r' = r) roots (processPass cfg roots).1) ∧
    (∀ (cfg : List (List Char)) (roots : List Section),
      List.Forall₂ (fun r r' => r.depth = 1 →
        List.Forall₂ (fun c c' => c.depth ≠ 2 → c' = c) r.subsections r'.subsections)
        roots (processPass cfg roots).1) :=
  ⟨sorter_sorts_candidates, processPass_keeps_other_roots, processPass_keeps_other_subs⟩

theorem claim5_sorter_reach_witness :
    ((3 : Nat) = 3) ∧ "Speakers".data ∈ ["Speakers".data] ∧
    (((Section.mk "City".data 3 []
        [Section.mk "Zed Young".data 4 [] [], Section.mk "Anna Park".data 4 [] []]
        ).sort_subsections "Speakers".data none ["Speakers".data]).1.subsections).map
        Section.name =
      (pySortByKey
        [Section.mk "Zed Young".data 4 [] [], Section.mk "Anna Park".data 4 [] []]).map
        Section.name :=
  ⟨rfl, by decide,
    claim5_sorter_reach_amended.1 ["Speakers".data] "Speakers".data none "City".data 3 []
      [Section.mk "Zed Young".data 4 [] [], Section.mk "Anna Park".data 4 [] []]
      rfl (by decide)⟩

/-- C6 (counterexample): a name from which neither a last nor a first
token is extractable does NOT fall back to the full trimmed name: for the
header name `","` both components are empty and the derived key is the
empty string, although the full trimmed name is `","`. -/
theorem claim6_fallback_counterexample :
    Section.extract_last_name (.mk ",".data 4 [] []) = [] ∧
    pyLower (pyStrip ",".data) = ",".data ∧
    ([] : List Char) ≠ ",".data := by
  decide

/-- C6 (amended): the derived sort key is the lower-cased last name when
the parser extracts one, otherwise the lower-cased first/only token — and
when neither is extractable the key is the empty string (there is no
fallback to the full trimmed name).  A single-token name such as
`"Madonna"` sorts by `"madonna"`. -/
theorem claim6_key_fallback_chain :
    (∀ s : Section, (humanName s.name).2 ≠ [] →
      s.extract_last_name = pyLower (humanName s.name).2) ∧
    (∀ s : Section, (humanName s.name).2 = [] →
      s.extract_last_name = pyLower (humanName s.name).1) ∧
    Section.extract_last_name (.mk "Madonna".data 4 [] []) = "madonna".data ∧
    Section.extract_last_name (.mk ",".data 4 [] []) = [] := by
  refine ⟨fun s h => ?_, fun s h => ?_, by decide, by decide⟩
  · rw [Section.extract_last_name, if_pos h]
  · rw [Section.extract_last_name, if_neg (by simpa using h)]

theorem claim6_key_fallback_witness :
    (humanName (Section.mk "Anna Park".data 4 [] []).name).2 ≠ [] ∧
    Section.extract_last_name (.mk "Anna Park".data 4 [] []) =
      pyLower (humanName (Section.mk "Anna Park".data 4 [] []).name).2 :=
  ⟨by decide, claim6_key_fallback_chain.1 (.mk "Anna Park".data 4 [] []) (by decide)⟩

/-- C7: stability — for a candidate section (depth 3, parent name in the
configured set), the subsequence of children names sharing any one
derived key is unchanged by the sort, i.e. equal-key children keep their
original relative order. -/
theorem claim7_sort_stability (cfg : List (List Char)) (p : List Char)
    (g : Option (List Char)) (s : Section) (k : List Char)
    (h3 : s.depth = 3) (hp : p ∈ cfg) :
    (((s.sort_subsections p g cfg).1.subsections).map Section.name).filter
        (fun nm => decide (nameKey nm = k)) =
      ((s.subsections).map Section.name).filter (fun nm => decide (nameKey nm = k)) := by
  cases s with
  | mk n d t subs =>
    rw [sort_subsections_eq]
    simp only [Section.subsections_mk, List.map_map]
    rw [List.map_congr_left
      (fun c _ => show (Section.name ∘ fun c => (c.sort_subsections n (some p) cfg).1) c =
        Section.name c from sort_subsections_fst_name c n (some p) cfg)]
    rw [List.filter_map, List.filter_map]
    congr 1
    exact filter_sortedSubs_key cfg p d subs k

theorem claim7_sort_stability_witness :
    (Section.mk "City".data 3 []
        [Section.mk "A Young".data 4 [] [], Section.mk "B Young".data 4 [] []]).depth = 3 ∧
    "Speakers".data ∈ ["Speakers".data] ∧
    ((((Section.mk "City".data 3 []
        [Section.mk "A Young".data 4 [] [], Section.mk "B Young".data 4 [] []]
        ).sort_subsections "Speakers".data none ["Speakers".data]).1.subsections).map
        Section.name).filter (fun nm => decide (nameKey nm = "young".data)) =
      (((Section.mk "City".data 3 []
        [Section.mk "A Young".data 4 [] [], Section.mk "B Young".data 4 [] []]
        ).subsections).map Section.name).filter
        (fun nm => decide (nameKey nm = "young".data)) :=
  ⟨rfl, by decide,
    claim7_sort_stability ["Speakers".data] "Speakers".data none
      (Section.mk "City".data 3 []
        [Section.mk "A Young".data 4 [] [], Section.mk "B Young".data 4 [] []])
      "young".data rfl (by decide)⟩

/-- C8: in every forest returned by the tree builder, each section's
depth is strictly smaller than all its descendants' depths, and depth
gaps greater than one are permitted: a depth-4 header directly after a
depth-2 header becomes its immediate child. -/
theorem claim8_strict_ancestor_depth :
    (∀ (lines : List (List Char)), ∀ s ∈ parse_file lines, WellDepth s) ∧
    (parse_file ["## A\n".data, "#### B\n".data]).map
        (fun s => (s.name, s.depth, s.subsections.map (fun c => (c.name, c.depth)))) =
      [("A".data, 2, [("B".data, 4)])] :=
  ⟨parse_file_wellDepth, by decide⟩

theorem claim8_strict_ancestor_depth_witness :
    Section.mk "A".data 2 [] [Section.mk "B".data 4 [] []] ∈
      parse_file ["## A\n".data, "#### B\n".data] ∧
    WellDepth (Section.mk "A".data 2 [] [Section.mk "B".data 4 [] []]) :=
  ⟨List.Mem.head _,
    claim8_strict_ancestor_depth.1 ["## A\n".data, "#### B\n".data] _ (List.Mem.head _)⟩

/-- C9: the frame property of the sort pass — for every forest and
configuration, the driver's forest is related to the original root by
root by `SameFrame`: names, depths and texts are unchanged and every
`subsections` list is a permutation of the original (pairwise related the
same way), so nothing is created, deleted, or field-edited; the
serializer is a pure function of the forest by construction. -/
theorem claim9_sort_frame_property (cfg : List (List Char)) (roots : List Section) :
    List.Forall₂ SameFrame roots (main_run cfg roots).1 ∧
    List.Forall₂ SameFrame roots (processPass cfg roots).1 := by
  constructor
  · rw [main_run_forest_eq_single_pass]
    exact processPass_frame cfg roots
  · exact processPass_frame cfg roots

/-- C10: the duplicated driver loop runs the full pass once per root
section, but the final forest equals the forest after a single pass,
because re-sorting an already key-sorted children list changes nothing. -/
theorem claim10_repeated_pass_equivalence (cfg : List (List Char)) (roots : List Section) :
    (main_run cfg roots).1 = (processPass cfg roots).1 :=
  main_run_forest_eq_single_pass cfg roots

end TidyDocMd
